import Mathlib

/-!
Verification of the `squid` classification dispatcher (kr2r/src/bin/squid.rs)
and, where the repository's collaborator modules are referenced but absent,
of models of those collaborators taken from the design document.

Conventions of the shallow embedding:
* Machine integers (u64, u32) are `Nat` with explicit `% 2 ^ 64` / `% 2 ^ 32`
  where Rust truncation happens.
* Bytes are `Nat` values; byte buffers are `List Nat`.
* Fallible Rust code returns `Except`.  A Rust slice-index out of range, which
  aborts the process instead of returning an `Err`, is a distinguished
  `Failure.indexOutOfBounds` outcome.
* The output directory of shard files (`sample_file_N.bin`) is a function
  from destination index to file contents.
* A `Read` stream is the list of results of successive `read` calls: either
  a filled byte buffer or an error code.
-/

/-- Little-endian serialization of `n` into `w` bytes, as in Rust
`u64::to_le_bytes` (each byte reduced mod 256, width-truncating). -/
def toLeBytes : Nat → Nat → List Nat
  | 0, _ => []
  | w + 1, n => n % 256 :: toLeBytes w (n / 256)

/-- Little-endian deserialization of a byte list, as in Rust `u64::from_le_bytes`. -/
def fromLeBytes : List Nat → Nat
  | [] => 0
  | b :: rest => b % 256 + 256 * fromLeBytes rest

/-- Modelled from the spec: the `Slot` record of the absent `kr2r::compact_hash`
module.  Section 6 of the design gives the chunk-body record as a `u64` key
followed by a `u64` value (16 bytes, little-endian). -/
structure Slot where
  key : Nat
  value : Nat
deriving DecidableEq

/-- The size in bytes of one `Slot` record: `std::mem::size_of::<Slot<u64>>()`,
two 8-byte machine words. -/
def slot_size : Nat := 16

/-- Decode one 16-byte record into a `Slot` (key = bytes 0..8 LE,
value = bytes 8..16 LE), the bounds-checked reading of the source's
`from_raw_parts` reinterpretation of the batch buffer. -/
def parseSlot (bytes : List Nat) : Slot :=
  ⟨fromLeBytes (bytes.take 8), fromLeBytes ((bytes.drop 8).take 8)⟩

/-- Decode a batch buffer into the whole records it contains.  The source
computes `slots_in_batch = bytes_read / slot_size` and views only that many
records; any residual bytes below one record's width are ignored. -/
def parseSlots (bytes : List Nat) : List Slot :=
  if h : slot_size ≤ bytes.length then
    parseSlot (bytes.take slot_size) :: parseSlots (bytes.drop slot_size)
  else []
termination_by bytes.length
decreasing_by
  simp only [List.length_drop]
  simp only [slot_size] at h ⊢
  omega

/-- Modelled from the spec: operation `right` of the absent `Compact` trait.
Per section 4.2, the taxon-id subfield of a value is extracted through the
`value_mask`; masking is bitwise conjunction. -/
def Compact.right (v mask : Nat) : Nat := v &&& mask

/-- Modelled from the spec: operation `left` of the absent `Compact` trait.
Per sections 4.2 and 8, a value splits into the taxon-id subfield reachable
through `value_mask` (the low `value_bits` bits) and the remaining payload
above it, so the `left` payload is the value shifted down by `value_bits`. -/
def Compact.left (v bits : Nat) : Nat := v >>> bits

/-- Modelled from the spec: operation `combined` of the absent `Compact`
trait.  Per sections 4.2 and 8 it reconstructs a full `u64` value from a left
payload and a new taxon id so that extracting either subfield returns it
unchanged: payload above the `value_bits` boundary, taxon id below. -/
def Compact.combined (l r bits : Nat) : Nat := ((l <<< bits) ||| r) % 2 ^ 64

/-- Modelled from the spec: `Slot::to_b` of the absent `kr2r::compact_hash`
module.  Per section 6 a shard record is exactly the 8-byte little-endian
repacked value field, so `to_b` yields the repacked `u64` value. -/
def Slot.to_b (_s : Slot) (h : Nat) : Nat := h

/-- The capability the dispatcher requires of a loaded page, per section 4.3
of the design: a lookup returning a `u32` taxon id, plus the shared layout
getters.  `CHTable` and `CHPage` both provide it (trait `K2Compact<u32>`). -/
structure K2Compact where
  get_from_page : Slot → Nat
  get_value_mask : Nat
  get_value_bits : Nat

/-- The body of the source's `filter_map` over a batch's slots: look the slot
up; a taxon id of zero (the non-positive sentinel for `u32`) contributes
nothing; a positive taxon id yields the destination index taken from bits
32..64 of the masked value and the 8-byte little-endian serialization of the
repacked value.  The `% 2 ^ 32` is the source's `as u32` cast of `left`. -/
def process_slot (chtm : K2Compact) (slot : Slot) : Option (Nat × List Nat) :=
  let taxid := chtm.get_from_page slot
  if 0 < taxid then
    let file_index := (Compact.right slot.value chtm.get_value_mask) >>> 32
    let left := (Compact.left slot.value chtm.get_value_bits) % 2 ^ 32
    let high := Compact.combined left taxid chtm.get_value_bits
    let value := Slot.to_b slot high
    some (file_index, toLeBytes 8 value)
  else
    none

/-- The per-batch grouping map from destination file index to accumulated
bytes, modelling the source's `HashMap<u64, Vec<u8>>` as an association
list. -/
abbrev AssocMap := List (Nat × List Nat)

/-- Lookup in the grouping map (`HashMap::get`). -/
def getEntry : AssocMap → Nat → Option (List Nat)
  | [], _ => none
  | (k1, v) :: rest, k => if k1 = k then some v else getEntry rest k

/-- Lookup with the empty buffer as default. -/
def getD (m : AssocMap) (k : Nat) : List Nat := (getEntry m k).getD []

/-- The source's `acc.entry(file_index).or_insert_with(Vec::new).extend(value_bytes)`:
append the bytes to the key's buffer, creating the entry if absent. -/
def extendEntry : AssocMap → Nat → List Nat → AssocMap
  | [], k, b => [(k, b)]
  | (k1, v) :: rest, k, b =>
    if k1 = k then (k1, v ++ b) :: rest else (k1, v) :: extendEntry rest k b

/-- Fold a list of (destination, bytes) pairs into a grouping map, the
source's `fold` accumulator over the filter-mapped slots. -/
def groupPairs (ps : List (Nat × List Nat)) : AssocMap :=
  ps.foldl (fun acc kv => extendEntry acc kv.1 kv.2) []

/-- One worker's grouping of a batch segment: `filter_map` each slot, then
fold into a per-destination map. -/
def group_slots (chtm : K2Compact) (slots : List Slot) : AssocMap :=
  groupPairs (slots.filterMap (process_slot chtm))

/-- The source's `reduce` merge of two per-worker maps: every entry of the
second map is appended under its key into the first. -/
def mergeMaps (acc h : AssocMap) : AssocMap :=
  h.foldl (fun a kv => extendEntry a kv.1 kv.2) acc

/-- Merge the per-worker maps of all workers (the fan-in of the parallel
fold/reduce). -/
def mergeAll (ms : List AssocMap) : AssocMap := ms.foldl mergeMaps []

/-- The (ordered) list of 8-byte records a slot list contributes to
destination `k`: a specification-side view of the grouped bytes at record
granularity. -/
def records_for (chtm : K2Compact) (slots : List Slot) (k : Nat) : List (List Nat) :=
  (slots.filterMap (process_slot chtm)).filterMap
    (fun kv => if kv.1 = k then some kv.2 else none)

/-- The order in which a batch's destinations are written: the source
collects `result.keys()` and sorts them (`sort_unstable`) ascending. -/
def write_order (m : AssocMap) : List Nat :=
  List.insertionSort (fun a b => a ≤ b) (m.map Prod.fst)

/-- The writer-side state: shard file contents by destination index
(`sample_file_N.bin` in the chunk directory, opened in create-or-append
mode), plus the `last_file_index` handle-reuse marker. -/
structure WState where
  fs : Nat → List Nat
  last_file_index : Option Nat

/-- The all-empty output directory and no open handle. -/
def st0 : WState := ⟨fun _ => [], none⟩

/-- The source's `write_to_file`: on a destination change flush and reopen in
create-or-append mode (contents preserved), then append the bytes to that
destination's shard. -/
def write_to_file (file_index : Nat) (bytes : List Nat) (st : WState) : WState :=
  ⟨fun k => if k = file_index then st.fs k ++ bytes else st.fs k, some file_index⟩

/-- One result of a `reader.read(&mut batch_buffer)` call: a buffer of bytes
read (empty meaning end of file) or an I/O error code. -/
inductive ReadResult where
  | ok (bytes : List Nat)
  | err (code : Nat)

/-- Process one successfully read batch buffer: reinterpret the whole records
it contains, group them (in parallel) by destination, then write the groups
out in ascending destination order. -/
def process_batch_step (chtm : K2Compact) (bytes : List Nat) (st : WState) : WState :=
  let slots := parseSlots bytes
  let result := group_slots chtm slots
  let file_indices := write_order result
  file_indices.foldl
    (fun st2 fi =>
      match getEntry result fi with
      | some bs => write_to_file fi bs st2
      | none => st2) st

/-- The source's `while let Ok(bytes_read) = reader.read(..)` loop: an `Err`
from `read` exits the loop (the error value is dropped), a zero-byte read
breaks at end of file, and otherwise the batch is processed and the loop
continues.  The final `flush` does not change file contents. -/
def process_batch_loop (chtm : K2Compact) : List ReadResult → WState → WState
  | [], st => st
  | .err _ :: _, st => st
  | .ok bytes :: rest, st =>
    if bytes.length = 0 then st
    else process_batch_loop chtm rest (process_batch_step chtm bytes st)

/-- The source's `process_batch`: stream batches from the chunk reader into
the shard directory.  `batch_size` only sizes the reusable read buffer; the
loop semantics do not otherwise depend on it. -/
def process_batch (chtm : K2Compact) (reads : List ReadResult) (st : WState)
    (_batch_size : Nat) : WState :=
  process_batch_loop chtm reads st

/-- The flat bytes one batch buffer contributes to destination `k`. -/
def batch_out (chtm : K2Compact) (bytes : List Nat) (k : Nat) : List Nat :=
  getD (group_slots chtm (parseSlots bytes)) k

/-- The flat bytes a whole read stream contributes to destination `k`,
mirroring the termination cases of `process_batch_loop`. -/
def batches_out (chtm : K2Compact) : List ReadResult → Nat → List Nat
  | [], _ => []
  | .err _ :: _, _ => []
  | .ok bytes :: rest, k =>
    if bytes.length = 0 then []
    else batch_out chtm bytes k ++ batches_out chtm rest k

/-- The source's `read_chunk_header`: `read_exact` 16 bytes (an I/O error if
fewer are available) and decode two little-endian `u64` fields, the partition
index and the declared record count. -/
def read_chunk_header (bytes : List Nat) : Except Nat (Nat × Nat) :=
  if bytes.length < 16 then Except.error 0
  else Except.ok (fromLeBytes (bytes.take 8), fromLeBytes ((bytes.drop 8).take 8))

/-- How processing a chunk can fail: an I/O error returned through `?`, or a
Rust slice-index panic, which aborts rather than returning an error. -/
inductive Failure where
  | ioError (code : Nat)
  | indexOutOfBounds
deriving DecidableEq

/-- Whether an outcome is an I/O error returned to the caller (as opposed to
success or an index panic). -/
def is_returned_io_error : Except Failure WState → Bool
  | Except.error (Failure.ioError _) => true
  | _ => false

/-- The dispatcher's environment: the sorted hash-table partition files
(abstracted to identifiers) and the loading collaborators.  `load_table`
models `CHTable::<u32>::from(file, page_index, page_size)`, `load_page`
models `CHPage::from(config, file_a, file_b)` and `config_result` the read of
`hash_config.k2d`; each is abstract because the `compact_hash` module is not
part of the visible source, and each yields the `K2Compact` capability the
dispatcher is polymorphic over. -/
structure ChunkEnv where
  hash_files : List Nat
  config_result : Except Nat Nat
  load_table : Nat → Nat → Nat → Except Nat K2Compact
  load_page : Nat → Nat → Nat → Except Nat K2Compact

/-- The source's `process_chunk_file`: read the 16-byte header; if at most
one hash-table file exists load the single-file table (`CHTable`) passing
the header's second field as the page size, else read the layout config and
load the boundary-spanning pair (`CHPage`) from the file at the partition
index and its cyclic successor; then stream the body through
`process_batch`.  Rust's `hash_files[i]` indexing panics when out of range. -/
def process_chunk_file (env : ChunkEnv) (header_bytes : List Nat)
    (body : List ReadResult) (st : WState) (batch_size : Nat) :
    Except Failure WState :=
  match read_chunk_header header_bytes with
  | Except.error e => Except.error (Failure.ioError e)
  | Except.ok (page_index, page_size) =>
    if env.hash_files.length ≤ 1 then
      match env.hash_files[0]? with
      | none => Except.error Failure.indexOutOfBounds
      | some f =>
        match env.load_table f page_index page_size with
        | Except.error e => Except.error (Failure.ioError e)
        | Except.ok chtm => Except.ok (process_batch chtm body st batch_size)
    else
      match env.config_result with
      | Except.error e => Except.error (Failure.ioError e)
      | Except.ok config =>
        match env.hash_files[page_index]? with
        | none => Except.error Failure.indexOutOfBounds
        | some f1 =>
          match env.hash_files[(page_index + 1) % env.hash_files.length]? with
          | none => Except.error Failure.indexOutOfBounds
          | some f2 =>
            match env.load_page config f1 f2 with
            | Except.error e => Except.error (Failure.ioError e)
            | Except.ok chtm => Except.ok (process_batch chtm body st batch_size)

/-- Convenience: the 16-byte chunk header encoding a partition index and a
declared record count. -/
def header_bytes (index count : Nat) : List Nat :=
  toLeBytes 8 index ++ toLeBytes 8 count

/-- Modelled from the spec: nucleotide complementation for the absent
`kr2r::mmscanner` minimizer extractor.  A and T (ASCII 65, 84) swap, C and G
(67, 71) swap, and any other symbol (an ambiguity code) stays ambiguous. -/
def complement_base (b : Nat) : Nat :=
  if b = 65 then 84
  else if b = 84 then 65
  else if b = 67 then 71
  else if b = 71 then 67
  else b

/-- Modelled from the spec: 2-bit encoding of an unambiguous nucleotide;
ambiguity codes have no encoding. -/
def encode_base (b : Nat) : Option Nat :=
  if b = 65 then some 0
  else if b = 67 then some 1
  else if b = 71 then some 2
  else if b = 84 then some 3
  else none

/-- A base is valid when it has a 2-bit encoding. -/
def valid_base (b : Nat) : Bool := (encode_base b).isSome

/-- Reverse complement of a nucleotide byte sequence. -/
def rc_seq (s : List Nat) : List Nat := (s.map complement_base).reverse

/-- Modelled from the spec: the forward encoding of an `l`-length window,
defined when every base is unambiguous (first base most significant). -/
def encode_window (w : List Nat) : Option Nat :=
  if w.all valid_base then
    some (w.foldl (fun acc b => acc * 4 + (encode_base b).getD 0) 0)
  else none

/-- Modelled from the spec: the canonical fingerprint of an `l`-window under
a hash `h` (covering the optional spaced-seed masking and further hashing):
compute both the forward hash and the reverse-complement hash and retain the
numerically smaller; windows touching an ambiguous base yield nothing. -/
def canonical_fp (h : Nat → Nat) (w : List Nat) : Option Nat :=
  match encode_window w, encode_window (rc_seq w) with
  | some f, some r => some (min (h f) (h r))
  | _, _ => none

/-- Minimum of a list of candidate hashes, the fold the scanner maintains
(its monotonic-deque implementation computes exactly this value). -/
def minList (l : List Nat) : Option Nat :=
  l.foldl
    (fun o x =>
      match o with
      | none => some x
      | some m => some (min m x)) none

/-- The contiguous window of length `len` starting at position `i`. -/
def window_at (s : List Nat) (i len : Nat) : List Nat := (s.drop i).take len

/-- All `l`-length windows of a k-mer, by position. -/
def lwindows (l : Nat) (kmer : List Nat) : List (List Nat) :=
  (List.range (kmer.length + 1 - l)).map (fun j => window_at kmer j l)

/-- Modelled from the spec: the minimizer of one k-mer, section 4.1 — the
numerically smallest canonical fingerprint among all `l`-windows of the
k-mer; a k-mer containing an ambiguous base yields no fingerprint. -/
def kmer_minimizer (h : Nat → Nat) (l : Nat) (kmer : List Nat) : Option Nat :=
  if kmer.all valid_base then minList ((lwindows l kmer).filterMap (canonical_fp h))
  else none

/-- Modelled from the spec: the minimizer sequence of a whole nucleotide
sequence — one optional fingerprint per k-mer position, invalid positions
skipped. -/
def extract_minimizers (h : Nat → Nat) (k l : Nat) (s : List Nat) : List Nat :=
  (List.range (s.length + 1 - k)).filterMap
    (fun i => kmer_minimizer h l (window_at s i k))

/-- Fixture: a page capability resolving every slot to taxon id 7, with a
full 64-bit value mask and 32 value bits. -/
def tbl7 : K2Compact := ⟨fun _ => 7, 2 ^ 64 - 1, 32⟩

/-- Fixture: a page capability resolving every slot to the "none" sentinel 0. -/
def tblNone : K2Compact := ⟨fun _ => 0, 2 ^ 64 - 1, 32⟩

/-- Fixture: a query slot routed to destination 5 (value high half 5, low
payload 9). -/
def slotA : Slot := ⟨1, (5 <<< 32) ||| 9⟩

/-- Fixture: a query slot routed to destination 6. -/
def slotB : Slot := ⟨2, (6 <<< 32) ||| 3⟩

/-- Fixture: an environment with two hash-table partition files. -/
def envTwo : ChunkEnv :=
  ⟨[10, 11], Except.ok 0, fun _ _ _ => Except.ok tbl7, fun _ _ _ => Except.ok tbl7⟩

/-- Fixture: an environment with a single hash-table file. -/
def envOne : ChunkEnv :=
  ⟨[10], Except.ok 0, fun _ _ _ => Except.ok tbl7, fun _ _ _ => Except.ok tbl7⟩

/-- Fixture: a 17-byte batch buffer — one whole Slot record plus one residual
byte. -/
def bytesW : List Nat := List.replicate 17 0

theorem toLeBytes_length (w : Nat) : ∀ n, (toLeBytes w n).length = w := by
  induction w with
  | zero => intro n; rfl
  | succ w ih => intro n; simp [toLeBytes, ih]

theorem getD_nil (k : Nat) : getD [] k = [] := rfl

theorem getD_cons (k1 : Nat) (v : List Nat) (rest : AssocMap) (k : Nat) :
    getD ((k1, v) :: rest) k = if k1 = k then v else getD rest k := by
  by_cases h : k1 = k <;> simp [getD, getEntry, h]

theorem getEntry_eq_none (m : AssocMap) (k : Nat) :
    getEntry m k = none ↔ k ∉ m.map Prod.fst := by
  induction m with
  | nil => simp [getEntry]
  | cons p rest ih =>
    obtain ⟨k1, v⟩ := p
    by_cases hk : k1 = k
    · subst hk; simp [getEntry]
    · rw [List.map_cons, List.mem_cons]
      simp only [getEntry, if_neg hk]
      rw [ih]
      constructor
      · intro h hor
        rcases hor with rfl | hmem
        · exact hk rfl
        · exact h hmem
      · intro h hmem
        exact h (Or.inr hmem)

theorem getEntry_some_mem (m : AssocMap) (k : Nat) (v : List Nat)
    (h : getEntry m k = some v) : (k, v) ∈ m := by
  induction m with
  | nil => simp [getEntry] at h
  | cons p rest ih =>
    obtain ⟨k1, v1⟩ := p
    by_cases hk : k1 = k
    · subst hk
      have h2 : v1 = v := by simpa [getEntry] using h
      subst h2
      exact List.mem_cons_self _ _
    · simp only [getEntry, if_neg hk] at h
      exact List.mem_cons_of_mem _ (ih h)

theorem getD_extendEntry (m : AssocMap) (k : Nat) (b : List Nat) (k2 : Nat) :
    getD (extendEntry m k b) k2 = getD m k2 ++ (if k2 = k then b else []) := by
  induction m with
  | nil =>
    rcases eq_or_ne k2 k with rfl | h
    · simp [extendEntry, getD, getEntry]
    · simp [extendEntry, getD, getEntry, h, Ne.symm h]
  | cons p rest ih =>
    obtain ⟨k1, v⟩ := p
    by_cases hk : k1 = k
    · subst hk
      rcases eq_or_ne k2 k1 with rfl | h2
      · simp [extendEntry, getD_cons]
      · simp [extendEntry, getD_cons, Ne.symm h2, h2]
    · rcases eq_or_ne k1 k2 with h2 | h2
      · subst h2
        simp [extendEntry, hk, getD_cons]
      · simp [extendEntry, hk, getD_cons, h2, ih]

theorem getD_foldl_extend (ps : List (Nat × List Nat)) :
    ∀ (acc : AssocMap) (k : Nat),
      getD (ps.foldl (fun a kv => extendEntry a kv.1 kv.2) acc) k
        = getD acc k ++ getD (groupPairs ps) k := by
  induction ps with
  | nil => intro acc k; simp [groupPairs, getD_nil]
  | cons p rest ih =>
    intro acc k
    have h1 : getD (groupPairs (p :: rest)) k
        = getD (extendEntry [] p.1 p.2) k ++ getD (groupPairs rest) k := by
      simp only [groupPairs, List.foldl_cons]
      exact ih (extendEntry [] p.1 p.2) k
    simp only [List.foldl_cons]
    rw [ih (extendEntry acc p.1 p.2) k, h1, getD_extendEntry, getD_extendEntry]
    simp [getD_nil, List.append_assoc]

theorem getD_groupPairs_cons (p : Nat × List Nat) (ps : List (Nat × List Nat)) (k : Nat) :
    getD (groupPairs (p :: ps)) k
      = (if k = p.1 then p.2 else []) ++ getD (groupPairs ps) k := by
  have h : getD (groupPairs (p :: ps)) k
      = getD (extendEntry [] p.1 p.2) k ++ getD (groupPairs ps) k := by
    simp only [groupPairs, List.foldl_cons]
    exact getD_foldl_extend ps (extendEntry [] p.1 p.2) k
  rw [h, getD_extendEntry]
  simp [getD_nil]

theorem getD_groupPairs_append (ps qs : List (Nat × List Nat)) (k : Nat) :
    getD (groupPairs (ps ++ qs)) k = getD (groupPairs ps) k ++ getD (groupPairs qs) k := by
  simp only [groupPairs, List.foldl_append]
  rw [getD_foldl_extend qs]
  rfl

theorem getD_mergeMaps (a h : AssocMap) (k : Nat) :
    getD (mergeMaps a h) k = getD a k ++ getD (groupPairs h) k :=
  getD_foldl_extend h a k

theorem getD_groupPairs_records (ps : List (Nat × List Nat)) (k : Nat) :
    getD (groupPairs ps) k
      = (ps.filterMap (fun kv => if kv.1 = k then some kv.2 else none)).flatten := by
  induction ps with
  | nil => simp [groupPairs, getD_nil]
  | cons p rest ih =>
    rw [getD_groupPairs_cons, ih]
    rcases eq_or_ne p.1 k with h | h
    · simp [h, List.filterMap_cons]
    · simp [h, Ne.symm h, List.filterMap_cons]

theorem keys_extendEntry (m : AssocMap) (k : Nat) (b : List Nat) :
    (extendEntry m k b).map Prod.fst
      = if k ∈ m.map Prod.fst then m.map Prod.fst else m.map Prod.fst ++ [k] := by
  induction m with
  | nil => simp [extendEntry]
  | cons p rest ih =>
    obtain ⟨k1, v⟩ := p
    by_cases hk : k1 = k
    · subst hk; simp [extendEntry]
    · have hk2 : k ≠ k1 := Ne.symm hk
      by_cases hmem : k ∈ rest.map Prod.fst
      · simp [extendEntry, hk, ih, hmem, hk2]
      · simp [extendEntry, hk, ih, hmem, hk2]

theorem keys_nodup_extendEntry (m : AssocMap) (k : Nat) (b : List Nat)
    (h : (m.map Prod.fst).Nodup) : ((extendEntry m k b).map Prod.fst).Nodup := by
  rw [keys_extendEntry]
  by_cases hmem : k ∈ m.map Prod.fst
  · simpa [hmem]
  · simp [hmem, List.nodup_append, h]

theorem keys_nodup_foldl (ps : List (Nat × List Nat)) :
    ∀ acc : AssocMap, (acc.map Prod.fst).Nodup →
      (((ps.foldl (fun a kv => extendEntry a kv.1 kv.2) acc)).map Prod.fst).Nodup := by
  induction ps with
  | nil => intro acc h; simpa using h
  | cons p rest ih =>
    intro acc h
    simp only [List.foldl_cons]
    exact ih _ (keys_nodup_extendEntry acc p.1 p.2 h)

theorem keys_nodup_groupPairs (ps : List (Nat × List Nat)) :
    ((groupPairs ps).map Prod.fst).Nodup :=
  keys_nodup_foldl ps [] (by simp)

theorem keys_nodup_mergeMaps (a h : AssocMap) (ha : (a.map Prod.fst).Nodup) :
    ((mergeMaps a h).map Prod.fst).Nodup :=
  keys_nodup_foldl h a ha

theorem keys_nodup_mergeAll (ms : List AssocMap) :
    ((mergeAll ms).map Prod.fst).Nodup := by
  suffices h : ∀ acc : AssocMap, (acc.map Prod.fst).Nodup →
      ((ms.foldl mergeMaps acc).map Prod.fst).Nodup from h [] (by simp)
  induction ms with
  | nil => intro acc h; simpa using h
  | cons m rest ih =>
    intro acc h
    simp only [List.foldl_cons]
    exact ih _ (keys_nodup_mergeMaps acc m h)

theorem vals_nonempty_extendEntry (m : AssocMap) (k : Nat) (b : List Nat)
    (hm : ∀ kv ∈ m, kv.2 ≠ ([] : List Nat)) (hb : b ≠ []) :
    ∀ kv ∈ extendEntry m k b, kv.2 ≠ ([] : List Nat) := by
  induction m with
  | nil => simpa [extendEntry] using hb
  | cons p rest ih =>
    obtain ⟨k1, v⟩ := p
    by_cases hk : k1 = k
    · subst hk
      intro kv hkv
      simp only [extendEntry, if_pos rfl] at hkv
      cases hkv with
      | head =>
        intro hcontra
        exact hb (List.append_eq_nil.mp hcontra).2
      | tail _ h2 => exact hm _ (List.mem_cons_of_mem _ h2)
    · intro kv hkv
      simp only [extendEntry, if_neg hk] at hkv
      cases hkv with
      | head => exact hm _ (List.mem_cons_self _ _)
      | tail _ h2 => exact ih (fun x hx => hm x (List.mem_cons_of_mem _ hx)) _ h2

theorem vals_nonempty_foldl (ps : List (Nat × List Nat)) :
    ∀ acc : AssocMap, (∀ kv ∈ acc, kv.2 ≠ ([] : List Nat)) →
      (∀ kv ∈ ps, kv.2 ≠ ([] : List Nat)) →
      ∀ kv ∈ ps.foldl (fun a kv => extendEntry a kv.1 kv.2) acc, kv.2 ≠ ([] : List Nat) := by
  induction ps with
  | nil => intro acc ha _; simpa using ha
  | cons p rest ih =>
    intro acc ha hps
    simp only [List.foldl_cons]
    exact ih _
      (vals_nonempty_extendEntry acc p.1 p.2 ha (hps p (List.mem_cons_self _ _)))
      (fun x hx => hps x (List.mem_cons_of_mem _ hx))

theorem getD_groupPairs_self (m : AssocMap) (k : Nat)
    (h : (m.map Prod.fst).Nodup) : getD (groupPairs m) k = getD m k := by
  induction m with
  | nil => simp [groupPairs, getD_nil]
  | cons p rest ih =>
    obtain ⟨k1, v⟩ := p
    simp only [List.map_cons, List.nodup_cons] at h
    rw [getD_groupPairs_cons, ih h.2, getD_cons]
    rcases eq_or_ne k1 k with rfl | hne
    · have hnone : getEntry rest k1 = none := (getEntry_eq_none rest k1).mpr h.1
      simp [getD, hnone]
    · simp [hne, Ne.symm hne]

theorem parseSlots_eq (bytes : List Nat) :
    parseSlots bytes
      = if slot_size ≤ bytes.length then
          parseSlot (bytes.take slot_size) :: parseSlots (bytes.drop slot_size)
        else [] := by
  rw [parseSlots, dite_eq_ite]

theorem parseSlots_length_aux (n : Nat) :
    ∀ bytes : List Nat, bytes.length ≤ n →
      (parseSlots bytes).length = bytes.length / slot_size := by
  induction n with
  | zero =>
    intro bytes h
    rw [parseSlots_eq, if_neg (by simp [slot_size]; omega)]
    simp [slot_size]
    omega
  | succ n ih =>
    intro bytes h
    rw [parseSlots_eq]
    by_cases h16 : slot_size ≤ bytes.length
    · rw [if_pos h16]
      simp only [List.length_cons]
      rw [ih (bytes.drop slot_size) (by simp only [List.length_drop, slot_size]; omega)]
      simp only [List.length_drop, slot_size] at h16 ⊢
      omega
    · rw [if_neg h16]
      simp only [slot_size] at h16
      simp only [List.length_nil, slot_size]
      omega

theorem parseSlots_length (bytes : List Nat) :
    (parseSlots bytes).length = bytes.length / slot_size :=
  parseSlots_length_aux bytes.length bytes le_rfl

theorem parseSlots_take_aux (n : Nat) :
    ∀ bytes : List Nat, bytes.length ≤ n →
      parseSlots (bytes.take (slot_size * (bytes.length / slot_size))) = parseSlots bytes := by
  induction n with
  | zero =>
    intro bytes h
    have h0 : bytes = [] := List.length_eq_zero.mp (by omega)
    subst h0
    rfl
  | succ n ih =>
    intro bytes h
    by_cases h16 : slot_size ≤ bytes.length
    · have htakelen : (bytes.take (slot_size * (bytes.length / slot_size))).length
          = slot_size * (bytes.length / slot_size) :=
        List.length_take_of_le (by simp only [slot_size] at h16 ⊢; omega)
      rw [parseSlots_eq (bytes.take (slot_size * (bytes.length / slot_size)))]
      rw [if_pos (by rw [htakelen]; simp only [slot_size] at h16 ⊢; omega)]
      rw [parseSlots_eq bytes, if_pos h16]
      have h1 : (bytes.take (slot_size * (bytes.length / slot_size))).take slot_size
          = bytes.take slot_size := by
        rw [List.take_take]
        congr 1
        simp only [slot_size] at h16 ⊢
        omega
      have h2 : (bytes.take (slot_size * (bytes.length / slot_size))).drop slot_size
          = (bytes.drop slot_size).take
              (slot_size * ((bytes.drop slot_size).length / slot_size)) := by
        rw [List.drop_take]
        congr 1
        simp only [List.length_drop, slot_size] at h16 ⊢
        omega
      rw [h1, h2, ih (bytes.drop slot_size) (by simp only [List.length_drop, slot_size]; omega)]
    · have hq : bytes.length / slot_size = 0 := by
        simp only [slot_size] at h16 ⊢
        omega
      rw [hq]
      simp only [Nat.mul_zero, List.take_zero]
      rw [parseSlots_eq bytes, if_neg h16]
      rw [parseSlots_eq ([] : List Nat), if_neg (by simp [slot_size])]

theorem parseSlots_take (bytes : List Nat) :
    parseSlots (bytes.take (slot_size * (bytes.length / slot_size))) = parseSlots bytes :=
  parseSlots_take_aux bytes.length bytes le_rfl

theorem getD_ne_nil_iff (m : AssocMap) (k : Nat)
    (h : ∀ kv ∈ m, kv.2 ≠ ([] : List Nat)) :
    getD m k ≠ [] ↔ k ∈ m.map Prod.fst := by
  constructor
  · intro hne
    by_contra hmem
    have : getEntry m k = none := (getEntry_eq_none m k).mpr hmem
    simp [getD, this] at hne
  · intro hmem
    cases hv : getEntry m k with
    | none => exact absurd ((getEntry_eq_none m k).mp hv) (by simpa using hmem)
    | some v =>
      have := h (k, v) (getEntry_some_mem m k v hv)
      simpa [getD, hv] using this

theorem write_to_file_fs (fi : Nat) (bytes : List Nat) (st : WState) (k : Nat) :
    (write_to_file fi bytes st).fs k = if k = fi then st.fs k ++ bytes else st.fs k := rfl

theorem fold_write_fs (result : AssocMap) :
    ∀ (keys : List Nat), keys.Nodup → ∀ (st : WState) (k : Nat),
      ((keys.foldl (fun st2 fi =>
          match getEntry result fi with
          | some bs => write_to_file fi bs st2
          | none => st2) st)).fs k
        = st.fs k ++ (if k ∈ keys then getD result k else []) := by
  intro keys
  induction keys with
  | nil => intro _ st k; simp
  | cons k1 rest ih =>
    intro hnd st k
    simp only [List.nodup_cons] at hnd
    simp only [List.foldl_cons]
    rw [ih hnd.2]
    rcases eq_or_ne k k1 with rfl | hne
    · rw [if_neg hnd.1, if_pos (List.mem_cons_self _ _)]
      cases hv : getEntry result k with
      | none => simp [getD, hv]
      | some bs => simp [getD, hv, write_to_file_fs]
    · have hfs : (match getEntry result k1 with
          | some bs => write_to_file k1 bs st
          | none => st).fs k = st.fs k := by
        cases hv : getEntry result k1 with
        | none => rfl
        | some bs => simp [write_to_file_fs, hne]
      rw [hfs]
      by_cases hkr : k ∈ rest
      · rw [if_pos hkr, if_pos (List.mem_cons_of_mem _ hkr)]
      · rw [if_neg hkr, if_neg (by simp [hne, hkr])]

theorem keys_nodup_group_slots (chtm : K2Compact) (slots : List Slot) :
    ((group_slots chtm slots).map Prod.fst).Nodup :=
  keys_nodup_groupPairs _

theorem write_order_perm (m : AssocMap) :
    List.Perm (write_order m) (m.map Prod.fst) :=
  List.perm_insertionSort _ _

theorem mem_write_order (m : AssocMap) (k : Nat) :
    k ∈ write_order m ↔ k ∈ m.map Prod.fst :=
  (write_order_perm m).mem_iff

theorem write_order_sorted_lt (m : AssocMap) (h : (m.map Prod.fst).Nodup) :
    List.Sorted (· < ·) (write_order m) := by
  have hs : List.Sorted (fun a b => a ≤ b) (write_order m) :=
    List.sorted_insertionSort _ _
  have hn : (write_order m).Nodup := ((write_order_perm m).nodup_iff).mpr h
  exact List.Sorted.lt_of_le hs hn

theorem process_batch_step_fs (chtm : K2Compact) (bytes : List Nat) (st : WState) (k : Nat) :
    (process_batch_step chtm bytes st).fs k = st.fs k ++ batch_out chtm bytes k := by
  unfold process_batch_step batch_out
  rw [fold_write_fs _ _ (((write_order_perm _).nodup_iff).mpr (keys_nodup_group_slots _ _))]
  by_cases hmem : k ∈ write_order (group_slots chtm (parseSlots bytes))
  · rw [if_pos hmem]
  · rw [if_neg hmem]
    rw [mem_write_order] at hmem
    have : getEntry (group_slots chtm (parseSlots bytes)) k = none :=
      (getEntry_eq_none _ _).mpr hmem
    simp [getD, this]

theorem process_batch_loop_fs (chtm : K2Compact) :
    ∀ (reads : List ReadResult) (st : WState) (k : Nat),
      (process_batch_loop chtm reads st).fs k = st.fs k ++ batches_out chtm reads k := by
  intro reads
  induction reads with
  | nil => intro st k; simp [process_batch_loop, batches_out]
  | cons r rest ih =>
    intro st k
    cases r with
    | err e => simp [process_batch_loop, batches_out]
    | ok bytes =>
      by_cases h0 : bytes.length = 0
      · simp [process_batch_loop, batches_out, h0]
      · simp only [process_batch_loop, batches_out, if_neg h0]
        rw [ih, process_batch_step_fs, List.append_assoc]

theorem getD_mergeAll (ms : List AssocMap) (k : Nat) :
    getD (mergeAll ms) k = (ms.map (fun m => getD (groupPairs m) k)).flatten := by
  suffices h : ∀ acc : AssocMap, getD (ms.foldl mergeMaps acc) k
      = getD acc k ++ (ms.map (fun m => getD (groupPairs m) k)).flatten by
    simpa [getD_nil] using h []
  induction ms with
  | nil => intro acc; simp [getD_nil]
  | cons m rest ih =>
    intro acc
    simp only [List.foldl_cons, List.map_cons, List.flatten_cons]
    rw [ih (mergeMaps acc m), getD_mergeMaps, List.append_assoc]

theorem getD_group_slots_records (chtm : K2Compact) (slots : List Slot) (k : Nat) :
    getD (group_slots chtm slots) k = (records_for chtm slots k).flatten :=
  getD_groupPairs_records _ _

theorem getD_groupPairs_group_slots (chtm : K2Compact) (p : List Slot) (k : Nat) :
    getD (groupPairs (group_slots chtm p)) k = getD (group_slots chtm p) k :=
  getD_groupPairs_self _ _ (keys_nodup_group_slots _ _)

theorem records_for_flatten (chtm : K2Compact) (parts : List (List Slot)) (k : Nat) :
    (parts.map (fun p => records_for chtm p k)).flatten
      = records_for chtm parts.flatten k := by
  unfold records_for
  simp only [List.filterMap_filterMap]
  exact (List.filterMap_flatten _ parts).symm

theorem records_for_perm (chtm : K2Compact) (l1 l2 : List Slot)
    (h : List.Perm l1 l2) (k : Nat) :
    List.Perm (records_for chtm l1 k) (records_for chtm l2 k) :=
  (h.filterMap _).filterMap _

theorem process_slot_some_len (chtm : K2Compact) (s : Slot) (kv : Nat × List Nat)
    (h : process_slot chtm s = some kv) : kv.2.length = 8 := by
  unfold process_slot at h
  by_cases htx : 0 < chtm.get_from_page s
  · simp only [if_pos htx] at h
    cases h
    exact toLeBytes_length 8 _
  · simp [if_neg htx] at h

theorem records_for_len (chtm : K2Compact) (slots : List Slot) (k : Nat) :
    ∀ r ∈ records_for chtm slots k, r.length = 8 := by
  intro r hr
  unfold records_for at hr
  rw [List.mem_filterMap] at hr
  obtain ⟨kv, hkv, hif⟩ := hr
  rw [List.mem_filterMap] at hkv
  obtain ⟨s, _, hps⟩ := hkv
  have hlen := process_slot_some_len chtm s kv hps
  by_cases hk : kv.1 = k
  · rw [if_pos hk] at hif
    cases hif
    exact hlen
  · rw [if_neg hk] at hif
    cases hif

theorem records_for_ne_nil_iff (chtm : K2Compact) (slots : List Slot) (k : Nat) :
    records_for chtm slots k ≠ [] ↔ ∃ s ∈ slots, ∃ b, process_slot chtm s = some (k, b) := by
  unfold records_for
  constructor
  · intro hne
    rcases hrec : (slots.filterMap (process_slot chtm)).filterMap
        (fun kv => if kv.1 = k then some kv.2 else none) with _ | ⟨r, rs⟩
    · exact absurd hrec hne
    · have hrmem : r ∈ (slots.filterMap (process_slot chtm)).filterMap
          (fun kv => if kv.1 = k then some kv.2 else none) := by
        rw [hrec]; exact List.mem_cons_self _ _
      rw [List.mem_filterMap] at hrmem
      obtain ⟨kv, hkv, hif⟩ := hrmem
      rw [List.mem_filterMap] at hkv
      obtain ⟨s, hs, hps⟩ := hkv
      by_cases hk : kv.1 = k
      · refine ⟨s, hs, kv.2, ?_⟩
        rw [hps]
        congr 1
        rw [← hk]
      · rw [if_neg hk] at hif
        cases hif
  · intro ⟨s, hs, b, hps⟩ hnil
    rw [List.filterMap_eq_nil_iff] at hnil
    have hkv : (k, b) ∈ slots.filterMap (process_slot chtm) :=
      List.mem_filterMap.mpr ⟨s, hs, hps⟩
    have := hnil (k, b) hkv
    simp at this

theorem complement_base_involutive (b : Nat) :
    complement_base (complement_base b) = b := by
  unfold complement_base
  split_ifs <;> omega

theorem valid_complement_base (b : Nat) :
    valid_base (complement_base b) = valid_base b := by
  unfold valid_base encode_base complement_base
  split_ifs <;> simp_all

theorem rc_seq_length (s : List Nat) : (rc_seq s).length = s.length := by
  simp [rc_seq]

theorem rc_seq_involutive (s : List Nat) : rc_seq (rc_seq s) = s := by
  unfold rc_seq
  rw [List.map_reverse, List.reverse_reverse, List.map_map]
  have h : s.map (complement_base ∘ complement_base) = s.map id :=
    List.map_eq_map_iff.mpr (fun a _ => complement_base_involutive a)
  rw [h, List.map_id]

theorem rc_seq_all_valid (s : List Nat) :
    (rc_seq s).all valid_base = s.all valid_base := by
  unfold rc_seq
  rw [List.all_reverse, List.all_map]
  induction s with
  | nil => rfl
  | cons a rest ih => simp [valid_complement_base, ih]

theorem range_reverse_map (n : Nat) :
    (List.range n).reverse = (List.range n).map (fun i => n - 1 - i) := by
  rw [List.range_eq_range', List.reverse_range']
  simp [List.range_eq_range']

theorem window_at_rc (s : List Nat) (i m : Nat) (h : i + m ≤ s.length) :
    window_at (rc_seq s) i m = rc_seq (window_at s (s.length - m - i) m) := by
  unfold window_at rc_seq
  rw [List.drop_reverse, List.take_reverse]
  have hlen1 : ((s.map complement_base).take ((s.map complement_base).length - i)).length
      = s.length - i := by
    simp [List.length_take, List.length_map]
  rw [hlen1]
  rw [List.drop_take]
  have h1 : s.length - i - (s.length - i - m) = m := by omega
  have h2 : (s.map complement_base).length - i = s.length - i := by simp
  rw [h2, h1]
  have h3 : s.length - i - m = s.length - m - i := by omega
  rw [h3]
  rw [← List.map_drop, ← List.map_take]

theorem canonical_fp_rc (h : Nat → Nat) (w : List Nat) :
    canonical_fp h (rc_seq w) = canonical_fp h w := by
  unfold canonical_fp
  rw [rc_seq_involutive]
  cases hf : encode_window w <;> cases hr : encode_window (rc_seq w) <;>
    simp [Nat.min_comm]

theorem minList_perm (l1 l2 : List Nat) (hp : List.Perm l1 l2) :
    minList l1 = minList l2 := by
  unfold minList
  apply hp.foldl_eq'
  intro x _ y _ z
  cases z with
  | none => simp [Nat.min_comm]
  | some m => simp [Nat.min_assoc, Nat.min_comm, Nat.min_left_comm]

theorem minList_mem_aux :
    ∀ (l : List Nat) (o : Option Nat) (x : Nat),
      l.foldl (fun o x =>
        match o with
        | none => some x
        | some m => some (min m x)) o = some x → o = some x ∨ x ∈ l := by
  intro l
  induction l with
  | nil => intro o x h; exact Or.inl h
  | cons a rest ih =>
    intro o x h
    simp only [List.foldl_cons] at h
    rcases ih _ x h with hstep | hmem
    · cases o with
      | none =>
        have hax : a = x := by injection hstep
        right
        rw [← hax]
        exact List.mem_cons_self _ _
      | some m =>
        have hmin : min m a = x := by injection hstep
        rcases Nat.le_total m a with hle | hle
        · left
          rw [Nat.min_eq_left hle] at hmin
          rw [hmin]
        · right
          rw [Nat.min_eq_right hle] at hmin
          rw [← hmin]
          exact List.mem_cons_self _ _
    · exact Or.inr (List.mem_cons_of_mem _ hmem)

theorem minList_mem (l : List Nat) (x : Nat) (h : minList l = some x) : x ∈ l := by
  rcases minList_mem_aux l none x h with hcontra | hmem
  · cases hcontra
  · exact hmem

theorem lwindows_rc (l : Nat) (K : List Nat) :
    lwindows l (rc_seq K)
      = (List.range (K.length + 1 - l)).map
          (fun j => rc_seq (window_at K (K.length + 1 - l - 1 - j) l)) := by
  unfold lwindows
  rw [rc_seq_length]
  apply List.map_eq_map_iff.mpr
  intro j hj
  rw [List.mem_range] at hj
  have hl : j + l ≤ K.length := by omega
  rw [window_at_rc K j l hl]
  have hidx : K.length - l - j = K.length + 1 - l - 1 - j := by omega
  rw [hidx]

theorem kmer_minimizer_rc (h : Nat → Nat) (l : Nat) (K : List Nat) :
    kmer_minimizer h l (rc_seq K) = kmer_minimizer h l K := by
  unfold kmer_minimizer
  rw [rc_seq_all_valid]
  by_cases hv : K.all valid_base
  · rw [if_pos hv, if_pos hv]
    apply minList_perm
    have e1 : (lwindows l (rc_seq K)).filterMap (canonical_fp h)
        = (List.range (K.length + 1 - l)).filterMap
            (fun j => canonical_fp h (window_at K (K.length + 1 - l - 1 - j) l)) := by
      rw [lwindows_rc, List.filterMap_map]
      apply List.filterMap_congr
      intro j _
      simp only [Function.comp]
      rw [canonical_fp_rc]
    have e2 : (List.range (K.length + 1 - l)).filterMap
          (fun j => canonical_fp h (window_at K (K.length + 1 - l - 1 - j) l))
        = ((List.range (K.length + 1 - l)).filterMap
            (fun j => canonical_fp h (window_at K j l))).reverse := by
      rw [← List.filterMap_reverse, range_reverse_map, List.filterMap_map]
      apply List.filterMap_congr
      intro j _
      simp only [Function.comp]
    have e3 : (lwindows l K).filterMap (canonical_fp h)
        = (List.range (K.length + 1 - l)).filterMap
            (fun j => canonical_fp h (window_at K j l)) := by
      unfold lwindows
      rw [List.filterMap_map]
      apply List.filterMap_congr
      intro j _
      simp only [Function.comp]
    rw [e1, e2, e3]
    exact List.reverse_perm _
  · rw [if_neg hv, if_neg hv]

theorem extract_minimizers_rc (h : Nat → Nat) (k l : Nat) (s : List Nat) :
    List.Perm (extract_minimizers h k l (rc_seq s)) (extract_minimizers h k l s) := by
  unfold extract_minimizers
  rw [rc_seq_length]
  have e1 : (List.range (s.length + 1 - k)).filterMap
        (fun i => kmer_minimizer h l (window_at (rc_seq s) i k))
      = (List.range (s.length + 1 - k)).filterMap
        (fun i => kmer_minimizer h l (window_at s (s.length + 1 - k - 1 - i) k)) := by
    apply List.filterMap_congr
    intro i hi
    rw [List.mem_range] at hi
    have hik : i + k ≤ s.length := by omega
    rw [window_at_rc s i k hik, kmer_minimizer_rc]
    have hidx : s.length - k - i = s.length + 1 - k - 1 - i := by omega
    rw [hidx]
  have e2 : (List.range (s.length + 1 - k)).filterMap
        (fun i => kmer_minimizer h l (window_at s (s.length + 1 - k - 1 - i) k))
      = ((List.range (s.length + 1 - k)).filterMap
          (fun i => kmer_minimizer h l (window_at s i k))).reverse := by
    rw [← List.filterMap_reverse, range_reverse_map, List.filterMap_map]
    apply List.filterMap_congr
    intro i _
    simp only [Function.comp]
  rw [e1, e2]
  exact List.reverse_perm _

theorem extract_minimizers_canonical (h : Nat → Nat) (k l : Nat) (s : List Nat) :
    ∀ x ∈ extract_minimizers h k l s, ∃ w f r,
      encode_window w = some f ∧ encode_window (rc_seq w) = some r
        ∧ x = min (h f) (h r) := by
  intro x hx
  unfold extract_minimizers at hx
  rw [List.mem_filterMap] at hx
  obtain ⟨i, _, hkm⟩ := hx
  unfold kmer_minimizer at hkm
  by_cases hv : (window_at s i k).all valid_base
  · rw [if_pos hv] at hkm
    have hxmem := minList_mem _ _ hkm
    rw [List.mem_filterMap] at hxmem
    obtain ⟨w, _, hcan⟩ := hxmem
    unfold canonical_fp at hcan
    cases hf : encode_window w with
    | none => rw [hf] at hcan; cases hcan
    | some f =>
      cases hr : encode_window (rc_seq w) with
      | none => rw [hf, hr] at hcan; cases hcan
      | some r =>
        rw [hf, hr] at hcan
        refine ⟨w, f, r, hf, hr, ?_⟩
        injection hcan with hmin
        rw [hmin]
  · rw [if_neg hv] at hkm
    cases hkm

theorem process_slot_pos (chtm : K2Compact) (slot : Slot)
    (hpos : 0 < chtm.get_from_page slot) :
    process_slot chtm slot
      = some ((Compact.right slot.value chtm.get_value_mask) >>> 32,
          toLeBytes 8 (Slot.to_b slot (Compact.combined
            ((Compact.left slot.value chtm.get_value_bits) % 2 ^ 32)
            (chtm.get_from_page slot) chtm.get_value_bits))) := by
  simp [process_slot, hpos]

theorem process_slot_zero (chtm : K2Compact) (slot : Slot)
    (hz : chtm.get_from_page slot = 0) :
    process_slot chtm slot = none := by
  simp [process_slot, hz]

theorem vals_nonempty_group_slots (chtm : K2Compact) (slots : List Slot) :
    ∀ kv ∈ group_slots chtm slots, kv.2 ≠ ([] : List Nat) := by
  unfold group_slots groupPairs
  apply vals_nonempty_foldl
  · simp
  · intro kv hkv
    rw [List.mem_filterMap] at hkv
    obtain ⟨s, _, hps⟩ := hkv
    have hlen := process_slot_some_len chtm s kv hps
    intro hc
    rw [hc] at hlen
    simp at hlen

theorem vals_nonempty_mergeAll (chtm : K2Compact) (parts : List (List Slot)) :
    ∀ kv ∈ mergeAll (parts.map (group_slots chtm)), kv.2 ≠ ([] : List Nat) := by
  unfold mergeAll
  suffices h : ∀ (ms : List AssocMap) (acc : AssocMap),
      (∀ kv ∈ acc, kv.2 ≠ ([] : List Nat)) →
      (∀ m ∈ ms, ∀ kv ∈ m, kv.2 ≠ ([] : List Nat)) →
      ∀ kv ∈ ms.foldl mergeMaps acc, kv.2 ≠ ([] : List Nat) by
    apply h
    · simp
    · intro m hm
      rw [List.mem_map] at hm
      obtain ⟨p, _, hpm⟩ := hm
      rw [← hpm]
      exact vals_nonempty_group_slots chtm p
  intro ms
  induction ms with
  | nil => intro acc ha _; simpa using ha
  | cons m rest ih =>
    intro acc ha hms
    simp only [List.foldl_cons]
    exact ih _
      (vals_nonempty_foldl m acc ha (hms m (List.mem_cons_self _ _)))
      (fun x hx => hms x (List.mem_cons_of_mem _ hx))

theorem getD_mergeAll_records (chtm : K2Compact) (parts : List (List Slot)) (k : Nat) :
    getD (mergeAll (parts.map (group_slots chtm))) k
      = (records_for chtm parts.flatten k).flatten := by
  rw [getD_mergeAll, List.map_map]
  have e : parts.map ((fun m => getD (groupPairs m) k) ∘ (group_slots chtm))
      = parts.map (fun p => (records_for chtm p k).flatten) := by
    apply List.map_eq_map_iff.mpr
    intro p _
    simp only [Function.comp]
    rw [getD_groupPairs_group_slots, getD_group_slots_records]
  rw [e]
  have e2 : parts.map (fun p => (records_for chtm p k).flatten)
      = (parts.map (fun p => records_for chtm p k)).map List.flatten := by
    rw [List.map_map]
    rfl
  rw [e2, ← List.flatten_flatten, records_for_flatten]

theorem flatten_records_ne_nil (chtm : K2Compact) (slots : List Slot) (k : Nat) :
    (records_for chtm slots k).flatten ≠ [] ↔ records_for chtm slots k ≠ [] := by
  constructor
  · intro h hc
    rw [hc] at h
    exact h rfl
  · intro h hc
    rw [List.flatten_eq_nil_iff] at hc
    rcases hrec : records_for chtm slots k with _ | ⟨r, rs⟩
    · exact h hrec
    · have hrlen : r.length = 8 := records_for_len chtm slots k r (by rw [hrec]; exact List.mem_cons_self _ _)
      have : r = [] := hc r (by rw [hrec]; exact List.mem_cons_self _ _)
      rw [this] at hrlen
      simp at hrlen

/-- C1: the claim says any read I/O error is surfaced to the caller.  The
source's `while let Ok(bytes_read) = reader.read(..)` loop instead exits the
loop when `read` returns `Err`, drops the error value, flushes, and returns
`Ok(())`: a read error terminates the stream exactly as a normal end of file
does, with no error surfaced.  This theorem evaluates the embedded loop at a
stream whose next read fails: processing stops in the current state and the
function completes normally (its result is a plain final state, with write
errors propagated by `?` but the read error never returned). -/
theorem c1_read_error_swallowed (chtm : K2Compact) (e : Nat)
    (rest : List ReadResult) (st : WState) (bsz : Nat) :
    process_batch chtm (ReadResult.err e :: rest) st bsz = st
      ∧ process_batch chtm (ReadResult.err e :: rest) st bsz
        = process_batch chtm [] st bsz :=
  ⟨rfl, rfl⟩

/-- C2: for every slot of a batch, a zero ("none") taxon id contributes no
output to any destination group, and a positive taxon id appends exactly one
8-byte little-endian record to the group whose index is bits 32..64 of the
slot's masked value, the record being the combination of the original left
payload (cast to u32) with the resolved taxon id; every other group is
unchanged. -/
theorem c2_slot_lookup_routing (chtm : K2Compact) (slots : List Slot) (slot : Slot) :
    (chtm.get_from_page slot = 0 →
      ∀ k, getD (group_slots chtm (slots ++ [slot])) k
        = getD (group_slots chtm slots) k)
    ∧ (0 < chtm.get_from_page slot →
        (toLeBytes 8 (Slot.to_b slot (Compact.combined
            ((Compact.left slot.value chtm.get_value_bits) % 2 ^ 32)
            (chtm.get_from_page slot) chtm.get_value_bits))).length = 8
        ∧ getD (group_slots chtm (slots ++ [slot]))
              ((Compact.right slot.value chtm.get_value_mask) >>> 32)
            = getD (group_slots chtm slots)
                ((Compact.right slot.value chtm.get_value_mask) >>> 32)
              ++ toLeBytes 8 (Slot.to_b slot (Compact.combined
                  ((Compact.left slot.value chtm.get_value_bits) % 2 ^ 32)
                  (chtm.get_from_page slot) chtm.get_value_bits))
        ∧ ∀ k, k ≠ (Compact.right slot.value chtm.get_value_mask) >>> 32 →
            getD (group_slots chtm (slots ++ [slot])) k
              = getD (group_slots chtm slots) k) := by
  have hsplit : ∀ k, getD (group_slots chtm (slots ++ [slot])) k
      = getD (group_slots chtm slots) k
        ++ getD (groupPairs (([slot]).filterMap (process_slot chtm))) k := by
    intro k
    unfold group_slots
    rw [List.filterMap_append, getD_groupPairs_append]
  constructor
  · intro hz k
    rw [hsplit k]
    rw [List.filterMap_cons]
    rw [process_slot_zero chtm slot hz]
    simp [groupPairs, getD_nil]
  · intro hpos
    have hps := process_slot_pos chtm slot hpos
    have hsingle : ([slot]).filterMap (process_slot chtm)
        = [((Compact.right slot.value chtm.get_value_mask) >>> 32,
            toLeBytes 8 (Slot.to_b slot (Compact.combined
              ((Compact.left slot.value chtm.get_value_bits) % 2 ^ 32)
              (chtm.get_from_page slot) chtm.get_value_bits)))] := by
      rw [List.filterMap_cons, hps]
      rfl
    refine ⟨toLeBytes_length 8 _, ?_, ?_⟩
    · rw [hsplit, hsingle]
      have : groupPairs [((Compact.right slot.value chtm.get_value_mask) >>> 32,
          toLeBytes 8 (Slot.to_b slot (Compact.combined
            ((Compact.left slot.value chtm.get_value_bits) % 2 ^ 32)
            (chtm.get_from_page slot) chtm.get_value_bits)))]
          = [((Compact.right slot.value chtm.get_value_mask) >>> 32,
              toLeBytes 8 (Slot.to_b slot (Compact.combined
                ((Compact.left slot.value chtm.get_value_bits) % 2 ^ 32)
                (chtm.get_from_page slot) chtm.get_value_bits)))] := rfl
      rw [this, getD_cons]
      simp
    · intro k hk
      rw [hsplit, hsingle]
      have : groupPairs [((Compact.right slot.value chtm.get_value_mask) >>> 32,
          toLeBytes 8 (Slot.to_b slot (Compact.combined
            ((Compact.left slot.value chtm.get_value_bits) % 2 ^ 32)
            (chtm.get_from_page slot) chtm.get_value_bits)))]
          = [((Compact.right slot.value chtm.get_value_mask) >>> 32,
              toLeBytes 8 (Slot.to_b slot (Compact.combined
                ((Compact.left slot.value chtm.get_value_bits) % 2 ^ 32)
                (chtm.get_from_page slot) chtm.get_value_bits)))] := rfl
      rw [this, getD_cons, if_neg (Ne.symm hk), getD_nil]
      simp

/-- Witness for C2 at concrete inputs: a slot against a page resolving
nothing contributes no bytes to destination 5, while the same slot against a
page resolving taxon id 7 appends exactly its 8-byte repacked record, whose
concrete value combines left payload 5 with taxon id 7. -/
theorem c2_witness :
    getD (group_slots tblNone ([] ++ [slotA])) 5 = []
    ∧ getD (group_slots tbl7 ([] ++ [slotA]))
        ((Compact.right slotA.value tbl7.get_value_mask) >>> 32)
        = [7, 0, 0, 0, 5, 0, 0, 0]
    ∧ getD (group_slots tbl7 ([] ++ [slotA])) 6 = [] := by
  refine ⟨(c2_slot_lookup_routing tblNone [] slotA).1 rfl 5, ?_, ?_⟩
  · rw [((c2_slot_lookup_routing tbl7 [] slotA).2 (by decide)).2.1]
    decide
  · rw [((c2_slot_lookup_routing tbl7 [] slotA).2 (by decide)).2.2 6 (by decide)]
    rfl

/-- C3: within a batch, the bytes accumulated per destination — viewed as a
multiset of 8-byte records — do not depend on how the batch is partitioned
across workers (nor on any reordering of the work): merging the per-worker
group-by-destination maps by per-key concatenation yields, at every key, a
flattening of 8-byte records whose multiset equals that of the sequential
grouping, and the per-key merge is associative. -/
theorem c3_worker_merge_invariance (chtm : K2Compact) (parts : List (List Slot))
    (slots : List Slot) (k : Nat) (hp : List.Perm parts.flatten slots) :
    getD (mergeAll (parts.map (group_slots chtm))) k
        = (records_for chtm parts.flatten k).flatten
    ∧ List.Perm (records_for chtm parts.flatten k) (records_for chtm slots k)
    ∧ getD (group_slots chtm slots) k = (records_for chtm slots k).flatten
    ∧ (∀ r ∈ records_for chtm slots k, r.length = 8)
    ∧ ∀ a b c : AssocMap, (b.map Prod.fst).Nodup →
        getD (mergeMaps (mergeMaps a b) c) k = getD (mergeMaps a (mergeMaps b c)) k := by
  refine ⟨getD_mergeAll_records chtm parts k,
    records_for_perm chtm parts.flatten slots hp k,
    getD_group_slots_records chtm slots k,
    records_for_len chtm slots k, ?_⟩
  intro a b c hb
  rw [getD_mergeMaps, getD_mergeMaps, getD_mergeMaps]
  have h1 : getD (groupPairs (mergeMaps b c)) k = getD (mergeMaps b c) k :=
    getD_groupPairs_self _ _ (keys_nodup_mergeMaps b c hb)
  rw [h1, getD_mergeMaps]
  have h2 : getD (groupPairs b) k = getD b k := getD_groupPairs_self _ _ hb
  rw [h2, List.append_assoc]

/-- Witness for C3: the batch of the two fixture slots split across two
workers, permuted, merges to the same per-destination records as the
sequential grouping. -/
theorem c3_witness :
    getD (mergeAll ([[slotB], [slotA]].map (group_slots tbl7))) 5
        = (records_for tbl7 ([[slotB], [slotA]].flatten) 5).flatten
    ∧ List.Perm (records_for tbl7 ([[slotB], [slotA]].flatten) 5)
        (records_for tbl7 [slotA, slotB] 5) := by
  have h := c3_worker_merge_invariance tbl7 [[slotB], [slotA]] [slotA, slotB] 5 (by decide)
  exact ⟨h.1, h.2.1⟩

/-- C4: after the parallel grouping of a batch — for any partition of the
batch across workers — the destinations are written out in strictly
ascending numeric order, and the set of destinations written is exactly the
set of destinations of slots whose lookup succeeded; in particular a batch
spanning two distinct destinations writes to both. -/
theorem c4_ascending_write_order (chtm : K2Compact) (parts : List (List Slot))
    (slots : List Slot) (hp : parts.flatten = slots) :
    List.Sorted (· < ·) (write_order (mergeAll (parts.map (group_slots chtm))))
    ∧ ∀ d, d ∈ write_order (mergeAll (parts.map (group_slots chtm)))
        ↔ ∃ s ∈ slots, ∃ b, process_slot chtm s = some (d, b) := by
  constructor
  · exact write_order_sorted_lt _ (keys_nodup_mergeAll _)
  · intro d
    rw [mem_write_order]
    rw [← getD_ne_nil_iff _ d (vals_nonempty_mergeAll chtm parts)]
    rw [getD_mergeAll_records, hp]
    rw [flatten_records_ne_nil]
    exact records_for_ne_nil_iff chtm slots d

/-- Witness for C4: a two-slot batch spanning destinations 5 and 6, split
across two workers, is written in the strictly ascending order and both
destinations appear. -/
theorem c4_witness :
    List.Sorted (· < ·) (write_order (mergeAll ([[slotA], [slotB]].map (group_slots tbl7))))
    ∧ (5 ∈ write_order (mergeAll ([[slotA], [slotB]].map (group_slots tbl7)))
        ↔ ∃ s ∈ [slotA, slotB], ∃ b, process_slot tbl7 s = some (5, b))
    ∧ (6 ∈ write_order (mergeAll ([[slotA], [slotB]].map (group_slots tbl7)))
        ↔ ∃ s ∈ [slotA, slotB], ∃ b, process_slot tbl7 s = some (6, b)) := by
  have h := c4_ascending_write_order tbl7 [[slotA], [slotB]] [slotA, slotB] (by decide)
  exact ⟨h.1, h.2 5, h.2 6⟩

/-- C7: a zero-byte read ends the stream normally (the remaining read
results are never consulted and no error arises); a read of fewer bytes than
requested is processed for exactly the whole records it contains —
`bytes_read / slot_size` of them, rounded down — and the residual bytes
below one record's width are discarded without an error. -/
theorem c7_streaming_eof_and_short_read (chtm : K2Compact) (bytes : List Nat)
    (rest : List ReadResult) (st : WState) (bsz : Nat) :
    process_batch chtm (ReadResult.ok [] :: rest) st bsz = st
    ∧ (bytes ≠ [] → process_batch chtm (ReadResult.ok bytes :: rest) st bsz
        = process_batch chtm rest (process_batch_step chtm bytes st) bsz)
    ∧ parseSlots bytes = parseSlots (bytes.take (slot_size * (bytes.length / slot_size)))
    ∧ (parseSlots bytes).length = bytes.length / slot_size := by
  refine ⟨rfl, ?_, (parseSlots_take bytes).symm, parseSlots_length bytes⟩
  intro hne
  have hlen : ¬ bytes.length = 0 := by simpa using hne
  simp [process_batch, process_batch_loop, hlen]

/-- Witness for C7 at a concrete 17-byte buffer: the batch advances by one
processed step, and exactly one whole record is decoded from it. -/
theorem c7_witness :
    process_batch tbl7 [ReadResult.ok bytesW] st0 1
      = process_batch tbl7 [] (process_batch_step tbl7 bytesW st0) 1
    ∧ (parseSlots bytesW).length = bytesW.length / slot_size := by
  have h := c7_streaming_eof_and_short_read tbl7 bytesW [] st0 1
  exact ⟨h.2.1 (by decide), h.2.2.2⟩

/-- C8: shard writes are pure appends against a create-or-append handle, so
running the same read stream twice against any starting shard directory
leaves each shard holding its prior contents followed by the stream's output
twice; `write_to_file` itself never truncates, it only appends. -/
theorem c8_reprocess_appends_twice (chtm : K2Compact) (reads : List ReadResult)
    (st : WState) (bsz : Nat) (k fi : Nat) (bytes : List Nat) :
    (process_batch chtm reads st bsz).fs k = st.fs k ++ batches_out chtm reads k
    ∧ (process_batch chtm reads (process_batch chtm reads st bsz) bsz).fs k
        = st.fs k ++ batches_out chtm reads k ++ batches_out chtm reads k
    ∧ (write_to_file fi bytes st).fs fi = st.fs fi ++ bytes := by
  refine ⟨process_batch_loop_fs chtm reads st k, ?_, by simp [write_to_file_fs]⟩
  simp only [process_batch]
  rw [process_batch_loop_fs chtm reads (process_batch_loop chtm reads st) k,
    process_batch_loop_fs chtm reads st k, List.append_assoc]

/-- C5: the page variant is selected by the number of hash-table files —
with exactly one file the single-file `CHTable` loader is invoked (receiving
the header's partition index and declared size), and with two or more files
the boundary-spanning `CHPage` loader is invoked on the file at the resolved
partition index together with its cyclic successor at index
(page_index + 1) mod N. -/
theorem c5_page_variant_selection (env : ChunkEnv) (hdr : List Nat) (i ps : Nat)
    (body : List ReadResult) (st : WState) (bsz : Nat)
    (hhdr : read_chunk_header hdr = Except.ok (i, ps)) :
    (∀ f, env.hash_files = [f] →
      process_chunk_file env hdr body st bsz
        = match env.load_table f i ps with
          | Except.error e => Except.error (Failure.ioError e)
          | Except.ok chtm => Except.ok (process_batch chtm body st bsz))
    ∧ (∀ cfg, 2 ≤ env.hash_files.length → i < env.hash_files.length →
        env.config_result = Except.ok cfg →
        ∃ f1 f2, env.hash_files[i]? = some f1
          ∧ env.hash_files[(i + 1) % env.hash_files.length]? = some f2
          ∧ process_chunk_file env hdr body st bsz
            = match env.load_page cfg f1 f2 with
              | Except.error e => Except.error (Failure.ioError e)
              | Except.ok chtm => Except.ok (process_batch chtm body st bsz)) := by
  constructor
  · intro f hf
    unfold process_chunk_file
    rw [hhdr, hf]
    simp
  · intro cfg h2 hi hcfg
    have hlen : ¬ env.hash_files.length ≤ 1 := by omega
    have hmod : (i + 1) % env.hash_files.length < env.hash_files.length :=
      Nat.mod_lt _ (by omega)
    refine ⟨env.hash_files.get ⟨i, hi⟩,
      env.hash_files.get ⟨(i + 1) % env.hash_files.length, hmod⟩, ?_, ?_, ?_⟩
    · exact List.getElem?_eq_getElem hi
    · exact List.getElem?_eq_getElem hmod
    · unfold process_chunk_file
      rw [hhdr]
      simp only [if_neg hlen, hcfg, List.getElem?_eq_getElem hi,
        List.getElem?_eq_getElem hmod]
      rfl

/-- Witness for C5: with the single-file fixture environment the `CHTable`
branch is taken, and with the two-file fixture the `CHPage` branch is taken
on partition file 0 and its cyclic successor. -/
theorem c5_witness :
    process_chunk_file envOne (header_bytes 0 3) [] st0 1
      = Except.ok (process_batch tbl7 [] st0 1)
    ∧ ∃ f1 f2, envTwo.hash_files[0]? = some f1
        ∧ envTwo.hash_files[(0 + 1) % envTwo.hash_files.length]? = some f2
        ∧ process_chunk_file envTwo (header_bytes 0 3) [] st0 1
          = match envTwo.load_page 0 f1 f2 with
            | Except.error e => Except.error (Failure.ioError e)
            | Except.ok chtm => Except.ok (process_batch chtm [] st0 1) := by
  constructor
  · exact (c5_page_variant_selection envOne (header_bytes 0 3) 0 3 [] st0 1 rfl).1 10 rfl
  · exact (c5_page_variant_selection envTwo (header_bytes 0 3) 0 3 [] st0 1 rfl).2 0
      (by decide) (by decide) rfl

/-- C6 counterexample: the claim says a partition index with no
corresponding hash-table file is propagated to the caller as an error, not
an abort that bypasses the caller.  At the concrete two-file environment and
a header declaring partition index 5, the source executes
`&hash_files[page_index]`, a Rust slice-index panic that aborts the process;
the embedded run ends in the distinguished index-out-of-bounds outcome and
the failure is not a returned I/O error. -/
theorem c6_counterexample :
    process_chunk_file envTwo (header_bytes 5 0) [] st0 1
      = Except.error Failure.indexOutOfBounds
    ∧ is_returned_io_error (process_chunk_file envTwo (header_bytes 5 0) [] st0 1)
      = false := by
  constructor <;> rfl

/-- C6 (amended): when the partition index declared in a chunk's header has
no corresponding hash-table file (multi-file case), processing that chunk is
fatal — but it fails through Rust's slice-index panic, aborting the process,
rather than returning an `io::Error` to the caller. -/
theorem c6_amended (env : ChunkEnv) (hdr : List Nat) (i ps cfg : Nat)
    (body : List ReadResult) (st : WState) (bsz : Nat)
    (hhdr : read_chunk_header hdr = Except.ok (i, ps))
    (h2 : 2 ≤ env.hash_files.length) (hi : env.hash_files.length ≤ i)
    (hcfg : env.config_result = Except.ok cfg) :
    process_chunk_file env hdr body st bsz
      = Except.error Failure.indexOutOfBounds := by
  unfold process_chunk_file
  rw [hhdr]
  have hlen : ¬ env.hash_files.length ≤ 1 := by omega
  have hnone : env.hash_files[i]? = none := List.getElem?_eq_none hi
  simp only [if_neg hlen, hcfg, hnone]

/-- Witness for C6 (amended) at a concrete environment and header. -/
theorem c6_witness :
    process_chunk_file envTwo (header_bytes 7 0) [] st0 1
      = Except.error Failure.indexOutOfBounds :=
  c6_amended envTwo (header_bytes 7 0) 7 0 0 [] st0 1 rfl (by decide) (by decide) rfl

/-- C9: for every sequence and parameters, extracting minimizers from the
reverse complement yields the same multiset of canonical fingerprints as
extracting from the sequence itself, and every emitted fingerprint is the
smaller of a window's forward and reverse-complement hashes (hence
strand-agnostic). -/
theorem c9_canonicalization_invariant (h : Nat → Nat) (k l : Nat) (s : List Nat) :
    List.Perm (extract_minimizers h k l (rc_seq s)) (extract_minimizers h k l s)
    ∧ ∀ x ∈ extract_minimizers h k l s, ∃ w f r,
        encode_window w = some f ∧ encode_window (rc_seq w) = some r
          ∧ x = min (h f) (h r) :=
  ⟨extract_minimizers_rc h k l s, extract_minimizers_canonical h k l s⟩

/-- Witness for C9 on the concrete dinucleotide sequence AC with k = l = 2:
the reverse complement GT extracts the same (singleton) multiset, and the
emitted fingerprint 1 is the min of a window's two strand encodings. -/
theorem c9_witness :
    List.Perm (extract_minimizers id 2 2 (rc_seq [65, 67]))
      (extract_minimizers id 2 2 [65, 67])
    ∧ ∃ w f r, encode_window w = some f ∧ encode_window (rc_seq w) = some r
        ∧ 1 = min (id f) (id r) := by
  have h := c9_canonicalization_invariant id 2 2 [65, 67]
  exact ⟨h.1, h.2 1 (by decide)⟩

/-- C10: the declared record count in a chunk header never limits or checks
the streamed body — in the multi-file case the whole outcome is independent
of it, and in the single-file case its sole use is being handed to the
table loader as the page size; the body itself is always streamed to end of
file. -/
theorem c10_declared_count_unused (env : ChunkEnv) (hdr1 hdr2 : List Nat)
    (i c1 c2 : Nat) (body : List ReadResult) (st : WState) (bsz : Nat)
    (h1 : read_chunk_header hdr1 = Except.ok (i, c1))
    (h2 : read_chunk_header hdr2 = Except.ok (i, c2)) :
    (2 ≤ env.hash_files.length →
      process_chunk_file env hdr1 body st bsz
        = process_chunk_file env hdr2 body st bsz)
    ∧ (∀ f, env.hash_files = [f] →
        process_chunk_file env hdr1 body st bsz
          = match env.load_table f i c1 with
            | Except.error e => Except.error (Failure.ioError e)
            | Except.ok chtm => Except.ok (process_batch chtm body st bsz)) := by
  constructor
  · intro hlen2
    have hlen : ¬ env.hash_files.length ≤ 1 := by omega
    unfold process_chunk_file
    rw [h1, h2]
    simp only [if_neg hlen]
  · intro f hf
    unfold process_chunk_file
    rw [h1, hf]
    simp

/-- Witness for C10: two headers for partition 0 declaring counts 3 and 99
give identical outcomes in the two-file environment, and in the single-file
environment the count reaches only the loader argument. -/
theorem c10_witness :
    process_chunk_file envTwo (header_bytes 0 3) [] st0 1
      = process_chunk_file envTwo (header_bytes 0 99) [] st0 1
    ∧ process_chunk_file envOne (header_bytes 0 3) [] st0 1
      = match envOne.load_table 10 0 3 with
        | Except.error e => Except.error (Failure.ioError e)
        | Except.ok chtm => Except.ok (process_batch chtm [] st0 1) := by
  have ha := c10_declared_count_unused envTwo (header_bytes 0 3) (header_bytes 0 99)
    0 3 99 [] st0 1 rfl rfl
  have hb := c10_declared_count_unused envOne (header_bytes 0 3) (header_bytes 0 99)
    0 3 99 [] st0 1 rfl rfl
  exact ⟨ha.1 (by decide), hb.2 10 rfl⟩
